import Mathlib

/-!
Verification development for the quo HTML core
(src/html/{trust,rules,attributes,node,elements,renderer}.rs).

The Rust code is shallowly embedded: newtype string wrappers become
`String` abbreviations, `HashMap` tables become association lists (keys
unique by construction), `HashSet` values become duplicate-free lists,
and the `unreachable!` panic in the class merge becomes `Option.none`.
Serialization sorts entries, so the association-list representation is
observationally faithful to the hash maps.
-/

set_option maxRecDepth 4096

namespace Quo

/-- ASCII double quote, written via its code point. -/
def dquoteChar : Char := Char.ofNat 34

/-- ASCII apostrophe / straight single quote, written via its code point. -/
def squoteChar : Char := Char.ofNat 39

/-! ## trust.rs -/

/-- `Content(String)`: user-supplied text node, escaped at construction. -/
abbrev Content := String

/-- `AttrValue(String)`: user-supplied attribute value, escaped at construction. -/
abbrev AttrValue := String

/-- `AttrKey(String)`: attribute key, library-internal, never escaped. -/
abbrev AttrKey := String

/-- `HtmlBlock(String)`: trusted markup fragment, never escaped. -/
abbrev HtmlBlock := String

/-- `TagName(String)`: element tag name, library-internal, never escaped. -/
abbrev TagName := String

/-- The `Rules` trait of rules.rs, restricted to the `apply` method that
`SafeString::from_str` consumes.  `apply` runs the configured typography
stages; `Default { rules: vec![] }` gives the identity. -/
structure Rules where
  apply : String → String

/-- `Default { rules: vec![] }`: the rule list is empty, so `apply` returns
its input unchanged. -/
def emptyRules : Rules := { apply := fun s => s }

/-- Per-character branch of `escape_html_chars` (trust.rs:169-182):
the five special characters map to their replacement strings, any other
character passes through as itself. -/
def escChar (c : Char) : List Char :=
  if c == '<' then "&lt;".data
  else if c == '>' then "&gt;".data
  else if c == '&' then "&amp;".data
  else if c == dquoteChar then "&quot;".data
  else if c == squoteChar then "&#39;".data
  else [c]

/-- The character-list loop body of `escape_html_chars`. -/
def escapeList : List Char → List Char
  | [] => []
  | c :: rest => escChar c ++ escapeList rest

/-- `escape_html_chars` (trust.rs:169-182). -/
def escape_html_chars (input : String) : String :=
  ⟨escapeList input.data⟩

/-- `impl SafeString for Content`: `from_str` applies the typography rules
then escapes (trust.rs:108-120). -/
def Content.from_str (s : String) (rule : Rules) : Content :=
  escape_html_chars (rule.apply s)

/-- `impl SafeString for AttrValue`: `from_str` applies the typography rules
then escapes (trust.rs:122-134). -/
def AttrValue.from_str (s : String) (rule : Rules) : AttrValue :=
  escape_html_chars (rule.apply s)

/-- `AttrKey::from_str` (trust.rs:136-143): stores the key verbatim. -/
def AttrKey.from_str (key : String) : AttrKey := key

/-- `HtmlBlock::from_str` (trust.rs:145-152): stores the block verbatim. -/
def HtmlBlock.from_str (block : String) : HtmlBlock := block

/-- `TagName::from_str` (trust.rs:154-161): stores the tag verbatim. -/
def TagName.from_str (block : String) : TagName := block

/-! ## rules.rs — SanitizationRules

`HashMap<String, _>` tables become association lists whose keys are
unique; `HashSet<char>` becomes a character list with membership
semantics.  The JSON/codepoint decoding of `from_files` is elided: the
embedding takes the already decoded per-locale tables as input, which is
exactly the data the fallback and deduplication logic operates on. -/

/-- `HashMap::get` on an association list keyed by locale strings. -/
def lookupLocale {α : Type} (m : List (String × α)) (k : String) : Option α :=
  (m.find? (fun p => p.1 == k)).map (fun p => p.2)

/-- `HashMap<char, char>::get` on an ambiguous-character table. -/
def lookupChar (t : List (Char × Char)) (c : Char) : Option Char :=
  (t.find? (fun p => p.1 == c)).map (fun p => p.2)

/-- Rust `locale.contains('-')`, evaluated on the character list. -/
def strContains (s : String) (c : Char) : Bool := s.data.contains c

/-- Rust `locale.split('-').next()`: the text before the first hyphen
(the whole string when there is none). -/
def baseLang (locale : String) : String :=
  ⟨locale.data.takeWhile (fun c => c != '-')⟩

structure SanitizationRules where
  invisible_chars : List (String × List Char)
  ambiguous_map : List (String × List (Char × Char))

/-- The effect of the deduplication loop of `from_files`
(rules.rs:116-122) on one stored invisible entry: the set stored under a
locale loses the keys of the ambiguous table stored under the same
locale, when one exists. -/
def stripAmbiguousKeys (ambiguous_data : List (String × List (Char × Char)))
    (p : String × List Char) : String × List Char :=
  (p.1, match lookupLocale ambiguous_data p.1 with
        | some t => p.2.filter (fun c => (lookupChar t c).isNone)
        | none => p.2)

/-- `SanitizationRules::from_files` (rules.rs:80-128) on decoded tables:
the ambiguous map is stored as given; the invisible sets are stored with
the per-locale deduplication applied. -/
def SanitizationRules.from_files
    (invisible_data : List (String × List Char))
    (ambiguous_data : List (String × List (Char × Char))) : SanitizationRules :=
  { ambiguous_map := ambiguous_data
    invisible_chars := invisible_data.map (stripAmbiguousKeys ambiguous_data) }

/-- `SanitizationRules::get_invisible_chars` (rules.rs:132-151):
`_common` is always included; the locale set is the exact-locale entry
when present, otherwise — only when the locale contains a hyphen — the
base-language entry. -/
def SanitizationRules.get_invisible_chars (r : SanitizationRules) (locale : String) :
    List Char :=
  ((lookupLocale r.invisible_chars "_common").getD []) ++
  (match lookupLocale r.invisible_chars locale with
   | some locale_chars => locale_chars
   | none =>
     if strContains locale '-' then
       (lookupLocale r.invisible_chars (baseLang locale)).getD []
     else [])

/-- `SanitizationRules::get_ambiguous_pairs` (rules.rs:155-177):
first table present in the order exact locale, base language (only when
the locale contains a hyphen), `"_default"`, `"_common"`; empty when none
of them is present. -/
def SanitizationRules.get_ambiguous_pairs (r : SanitizationRules) (locale : String) :
    List (Char × Char) :=
  match lookupLocale r.ambiguous_map locale with
  | some locale_map => locale_map
  | none =>
    match (if strContains locale '-' then
             lookupLocale r.ambiguous_map (baseLang locale)
           else none) with
    | some lang_map => lang_map
    | none =>
      match lookupLocale r.ambiguous_map "_default" with
      | some default_map => default_map
      | none => (lookupLocale r.ambiguous_map "_common").getD []

/-- `Default::replace_ambiguous_chars` (rules.rs:262-268), generalized over
the locale argument passed to `get_ambiguous_pairs` (the `Default`
implementation fixes it to `"_default"`). -/
def replace_ambiguous_chars (r : SanitizationRules) (locale : String)
    (input : String) : String :=
  ⟨input.data.map (fun c => ((r.get_ambiguous_pairs locale).find? (fun p => p.1 == c)).map (fun p => p.2) |>.getD c)⟩

/-- `Default::remove_invisible_chars` (rules.rs:270-276), generalized over
the locale argument passed to `get_invisible_chars`. -/
def remove_invisible_chars (r : SanitizationRules) (locale : String)
    (input : String) : String :=
  ⟨input.data.filter (fun c => !(r.get_invisible_chars locale).contains c)⟩

/-! ## rules.rs — smart quotes (`Default::punctuation_rule`) -/

/-- The apostrophe test of rules.rs:298-302: positions other than the
first and the last, whose two neighbours both satisfy the alphabetic
test.  Rust `char::is_alphabetic` (full Unicode) is kept abstract as the
parameter `alpha`. -/
def is_apostrophe (alpha : Char → Bool) (chars : List Char) (i : Nat) : Bool :=
  if 0 < i ∧ i < chars.length - 1 then
    alpha (chars.getD (i - 1) ' ') && alpha (chars.getD (i + 1) ' ')
  else false

/-- One iteration of the indexed scan of `Default::punctuation_rule`
(rules.rs:286-319), acting on the accumulator
(output so far, is_in_double_quote, is_in_single_quote). -/
def puncStep (alpha : Char → Bool) (chars : List Char)
    (acc : List Char × Bool × Bool) (i : Nat) : List Char × Bool × Bool :=
  let result := acc.1
  let is_in_double_quote := acc.2.1
  let is_in_single_quote := acc.2.2
  let current_char := chars.getD i ' '
  if current_char == dquoteChar then
    (result ++ [if is_in_double_quote then '”' else '“'],
     !is_in_double_quote, is_in_single_quote)
  else if current_char == squoteChar then
    if is_apostrophe alpha chars i then
      (result ++ ['’'], is_in_double_quote, is_in_single_quote)
    else
      (result ++ [if is_in_single_quote then '’' else '‘'],
       is_in_double_quote, !is_in_single_quote)
  else
    (result ++ [current_char], is_in_double_quote, is_in_single_quote)

/-- `Default::punctuation_rule` (rules.rs:279-322): a single left-to-right
indexed scan with the two independent quote toggles, both starting false. -/
def punctuation_rule (alpha : Char → Bool) (input : String) : String :=
  let chars := input.data
  ⟨((List.range chars.length).foldl (puncStep alpha chars) ([], false, false)).1⟩

/-! ## attributes.rs

`AttrHashMap` wraps `HashMap<AttrKey, AttrValues>`; here the table is an
association list whose keys every operation keeps unique (insertion
filters the key out first, mirroring `HashMap::insert` overwriting).
`HashSet<AttrValue>` (the `Set` payload) is a list that the set
operations keep duplicate-free; the serializer sorts it, so list order
never shows in output, matching the unordered hash set. -/

/-- `AttrValues` (attributes.rs:364-370). -/
inductive AttrValues where
  | Token : AttrValue → AttrValues
  | Bool : Bool → AttrValues
  | Set : List AttrValue → AttrValues
  | List : List AttrValue → AttrValues
deriving DecidableEq, Repr

/-- `MergeMode` (attributes.rs:388-392). -/
inductive MergeMode where
  | Keep
  | Force
deriving DecidableEq, Repr

/-- `HashSet::insert`: add a value unless already present. -/
def setInsert (s : List AttrValue) (v : AttrValue) : List AttrValue :=
  if s.contains v then s else s ++ [v]

/-- `HashSet::extend`: insert every element of `vs`. -/
def setExtend (s : List AttrValue) (vs : List AttrValue) : List AttrValue :=
  vs.foldl setInsert s

/-- `AttrHashMap` (attributes.rs:425-429). -/
structure AttrHashMap where
  table : List (AttrKey × AttrValues)
deriving DecidableEq, Repr

/-- `AttrHashMap::new` (attributes.rs:432-436). -/
def AttrHashMap.new : AttrHashMap := ⟨[]⟩

/-- `AttrHashMap::add` (attributes.rs:439-443): `HashMap::insert`
semantics — an existing entry under the same key is overwritten. -/
def AttrHashMap.add (m : AttrHashMap) (k : AttrKey) (v : AttrValues) : AttrHashMap :=
  ⟨m.table.filter (fun p => p.1 != k) ++ [(k, v)]⟩

/-- `AttrHashMap::get` (attributes.rs:445-447). -/
def AttrHashMap.get (m : AttrHashMap) (k : AttrKey) : Option AttrValues :=
  (m.table.find? (fun p => p.1 == k)).map (fun p => p.2)

/-- One `Keep` iteration of `AttrHashMap::merge`:
`table.entry(k).or_insert(v)` inserts only an absent key. -/
def keepStep (t : List (AttrKey × AttrValues)) (kv : AttrKey × AttrValues) :
    List (AttrKey × AttrValues) :=
  if (t.find? (fun p => p.1 == kv.1)).isSome then t else t ++ [kv]

/-- One `Force` iteration of `AttrHashMap::merge`: `HashMap::extend`
inserts/overwrites the key. -/
def forceStep (t : List (AttrKey × AttrValues)) (kv : AttrKey × AttrValues) :
    List (AttrKey × AttrValues) :=
  t.filter (fun p => p.1 != kv.1) ++ [kv]

/-- `AttrHashMap::merge` (attributes.rs:461-477). -/
def AttrHashMap.merge (m : AttrHashMap) (other : AttrHashMap) (mode : MergeMode) :
    AttrHashMap :=
  match mode with
  | .Keep => ⟨other.table.foldl keepStep m.table⟩
  | .Force => ⟨other.table.foldl forceStep m.table⟩

/-- Lexicographic comparison of character lists by code point: the order
`Ord`/`sort` uses on Rust strings (UTF-8 byte order coincides with code
point order). -/
def listLe : List Char → List Char → Bool
  | [], _ => true
  | _ :: _, [] => false
  | a :: as, b :: bs =>
    if a.toNat < b.toNat then true
    else if b.toNat < a.toNat then false
    else listLe as bs

/-- Lexicographic string comparison. -/
def strLe (a b : String) : Bool := listLe a.data b.data

/-- `strLe` as a relation, for the sorting lemmas. -/
def strLeP (a b : String) : Prop := strLe a b = true

instance : DecidableRel strLeP := fun a b => instDecidableEqBool (strLe a b) true

theorem listLe_total : ∀ a b : List Char, listLe a b = true ∨ listLe b a = true
  | [], _ => Or.inl rfl
  | _ :: _, [] => Or.inr rfl
  | a :: as, b :: bs => by
    by_cases g : a.toNat < b.toNat
    · exact Or.inl (by simp [listLe, g])
    · by_cases h : b.toNat < a.toNat
      · exact Or.inr (by simp [listLe, h])
      · rcases listLe_total as bs with ih | ih
        · exact Or.inl (by simp [listLe, g, h, ih])
        · exact Or.inr (by simp [listLe, g, h, ih])

theorem listLe_trans : ∀ a b c : List Char,
    listLe a b = true → listLe b c = true → listLe a c = true
  | [], _, _, _, _ => rfl
  | _ :: _, [], _, hab, _ => by simp [listLe] at hab
  | _ :: _, _ :: _, [], _, hbc => by simp [listLe] at hbc
  | a :: as, b :: bs, c :: cs, hab, hbc => by
    simp only [listLe] at hab hbc ⊢
    rcases Nat.lt_trichotomy a.toNat b.toNat with g | g | g
    · rcases Nat.lt_trichotomy b.toNat c.toNat with h | h | h
      · simp [show a.toNat < c.toNat by omega]
      · simp [show a.toNat < c.toNat by omega]
      · rw [if_neg (show ¬b.toNat < c.toNat by omega), if_pos h] at hbc
        exact absurd hbc (by simp)
    · rcases Nat.lt_trichotomy b.toNat c.toNat with h | h | h
      · simp [show a.toNat < c.toNat by omega]
      · rw [if_neg (show ¬a.toNat < b.toNat by omega),
          if_neg (show ¬b.toNat < a.toNat by omega)] at hab
        rw [if_neg (show ¬b.toNat < c.toNat by omega),
          if_neg (show ¬c.toNat < b.toNat by omega)] at hbc
        rw [if_neg (show ¬a.toNat < c.toNat by omega),
          if_neg (show ¬c.toNat < a.toNat by omega)]
        exact listLe_trans as bs cs hab hbc
      · rw [if_neg (show ¬b.toNat < c.toNat by omega), if_pos h] at hbc
        exact absurd hbc (by simp)
    · rw [if_neg (show ¬a.toNat < b.toNat by omega), if_pos g] at hab
      exact absurd hab (by simp)

theorem listLe_antisymm : ∀ a b : List Char,
    listLe a b = true → listLe b a = true → a = b
  | [], [], _, _ => rfl
  | [], _ :: _, _, hba => by simp [listLe] at hba
  | _ :: _, [], hab, _ => by simp [listLe] at hab
  | a :: as, b :: bs, hab, hba => by
    simp only [listLe] at hab hba
    rcases Nat.lt_trichotomy a.toNat b.toNat with g | g | g
    · rw [if_neg (show ¬b.toNat < a.toNat by omega), if_pos g] at hba
      exact absurd hba (by simp)
    · have hv : a = b := Char.eq_of_val_eq (UInt32.toNat.inj g)
      subst hv
      simp only [if_neg (Nat.lt_irrefl a.toNat)] at hab hba
      rw [listLe_antisymm as bs hab hba]
    · rw [if_neg (show ¬a.toNat < b.toNat by omega), if_pos g] at hab
      exact absurd hab (by simp)

instance : IsTotal String strLeP := ⟨fun a b => listLe_total a.data b.data⟩

instance : IsTrans String strLeP :=
  ⟨fun _ _ _ h h' => listLe_trans _ _ _ h h'⟩

/-- Key order used by `sorted_attrs.sort_by_key(|(k, _)| *k)`. -/
def entryLe (a b : AttrKey × AttrValues) : Prop := strLeP a.1 b.1

instance : DecidableRel entryLe := fun a b => instDecidableEqBool (strLe a.1 b.1) true

instance : IsTotal (AttrKey × AttrValues) entryLe := ⟨fun a b => listLe_total a.1.data b.1.data⟩

instance : IsTrans (AttrKey × AttrValues) entryLe :=
  ⟨fun _ _ _ h h' => listLe_trans _ _ _ h h'⟩

/-- Rendering of one sorted entry inside `AttrHashMap::into_string`
(attributes.rs:493-516): `Token` as ` key="value"`, `Bool(true)` as
` key`, a non-empty `Set` as ` key="…"` with its members sorted and
space-joined, everything else (`Bool(false)`, `List`) as nothing. -/
def renderEntry (p : AttrKey × AttrValues) : String :=
  match p.2 with
  | .Token val => " " ++ p.1 ++ "=\"" ++ val ++ "\""
  | .Bool true => " " ++ p.1
  | .Set classes =>
    if classes.isEmpty then ""
    else " " ++ p.1 ++ "=\"" ++
      String.intercalate " " (classes.insertionSort strLeP) ++ "\""
  | _ => ""

/-- `AttrHashMap::into_string` (attributes.rs:488-518): sort the entries
by key, then emit each one.  (`Vec::sort_by_key` is replaced by the
structurally recursive insertion sort; keys are unique, so any sorted
order is the same list.) -/
def AttrHashMap.into_string (m : AttrHashMap) : String :=
  String.join ((m.table.insertionSort entryLe).map renderEntry)

/-- `SharedAttrs` is `Arc<AttrHashMap>`; sharing is irrelevant to values,
so it is the map itself. -/
abbrev SharedAttrs := AttrHashMap

/-- `SharedAttrs::from_map` (attributes.rs:404-406). -/
def SharedAttrs.from_map (m : AttrHashMap) : SharedAttrs := m

/-- `Attributes<T>` erased of its phantom marker: the claims concern the
stored table only (attributes.rs:552-555). -/
abbrev Attributes := AttrHashMap

/-- `Attributes::class` (attributes.rs:600-627), the class-like
accumulation.  The `unreachable!` panic on a `Bool` prior value is
modelled as `none`; every non-panicking path returns `some`. -/
def Attributes.classMerge (self : Attributes) (classes : List AttrValue) :
    Option Attributes :=
  let class_key : AttrKey := AttrKey.from_str "class"
  match self.get class_key with
  | some (.Token token) => some (self.add class_key (.Set (setInsert classes token)))
  | some (.Set existing_set) => some (self.add class_key (.Set (setExtend classes existing_set)))
  | some (.List attr_values) => some (self.add class_key (.Set (setExtend classes attr_values)))
  | some (.Bool _) => none
  | none => some (self.add class_key (.Set classes))

/-- `Attributes::id` (attributes.rs:584-592). -/
def Attributes.id (self : Attributes) (v : AttrValue) : Attributes :=
  self.add (AttrKey.from_str "id") (.Token v)

/-- `Attributes::title` (attributes.rs:630-638). -/
def Attributes.title (self : Attributes) (v : AttrValue) : Attributes :=
  self.add (AttrKey.from_str "title") (.Token v)

/-- `Attributes::src` (attributes.rs:647-655). -/
def Attributes.src (self : Attributes) (v : AttrValue) : Attributes :=
  self.add (AttrKey.from_str "src") (.Token v)

/-- `Attributes::alt` (attributes.rs:658-666). -/
def Attributes.alt (self : Attributes) (v : AttrValue) : Attributes :=
  self.add (AttrKey.from_str "alt") (.Token v)

/-- `AttrBuilder::global` / `AttrBuilder::image`: fresh empty tables. -/
def AttrBuilder.global : Attributes := AttrHashMap.new

def AttrBuilder.image : Attributes := AttrHashMap.new

/-! ## node.rs — the IR tree -/

/-- `ElementType` (node.rs:171-175). -/
inductive ElementType where
  | Void
  | Normal
deriving DecidableEq, Repr

mutual
/-- `Element` (node.rs:163-168). -/
inductive Element where
  | Text : Content → Element
  | Node : IRNode → Element
  | Raw : HtmlBlock → Element

/-- `IRNode` (node.rs:178-184). -/
inductive IRNode where
  | mk : TagName → SharedAttrs → ElementType → List Element → IRNode
end

/-- `IRNode::new` (node.rs:186-199): plain construction, no validation of
any kind. -/
def IRNode.new (tag : TagName) (attrs : SharedAttrs) (tagtype : ElementType)
    (childs : List Element) : IRNode :=
  IRNode.mk tag attrs tagtype childs

def IRNode.get_tag : IRNode → TagName
  | .mk tag _ _ _ => tag

def IRNode.get_attrs : IRNode → SharedAttrs
  | .mk _ attrs _ _ => attrs

def IRNode.get_type : IRNode → ElementType
  | .mk _ _ tagtype _ => tagtype

def IRNode.childs : IRNode → List Element
  | .mk _ _ _ childs => childs

/-! ## renderer.rs — HtmlRenderer -/

/-- `HtmlRenderer` (renderer.rs:233-236): the accumulated `HtmlBlock`
buffer. -/
structure HtmlRenderer where
  buffer : HtmlBlock
deriving DecidableEq, Repr

/-- `HtmlRenderer::new` (renderer.rs:238-244). -/
def HtmlRenderer.new : HtmlRenderer := ⟨HtmlBlock.from_str ""⟩

/-- `visit_node_begin` (renderer.rs:252-271). -/
def HtmlRenderer.visit_node_begin (r : HtmlRenderer) (node : IRNode) : HtmlRenderer :=
  let buffer := r.buffer
  let buffer := buffer.push '<'
  let buffer := buffer ++ node.get_tag
  let buffer := buffer ++ node.get_attrs.into_string
  let buffer := match node.get_type with
    | .Void => buffer ++ " >"
    | .Normal => buffer.push '>'
  ⟨HtmlBlock.from_str buffer⟩

/-- `visit_node_end` (renderer.rs:276-293). -/
def HtmlRenderer.visit_node_end (r : HtmlRenderer) (node : IRNode) : HtmlRenderer :=
  let buffer := r.buffer
  let buffer := match node.get_type with
    | .Normal => (buffer ++ "</" ++ node.get_tag).push '>'
    | .Void => buffer
  ⟨HtmlBlock.from_str buffer⟩

/-- `visit_text` (renderer.rs:297-304). -/
def HtmlRenderer.visit_text (r : HtmlRenderer) (content : Content) : HtmlRenderer :=
  ⟨HtmlBlock.from_str (r.buffer ++ content)⟩

/-- `visit_raw` (renderer.rs:308-315). -/
def HtmlRenderer.visit_raw (r : HtmlRenderer) (html : HtmlBlock) : HtmlRenderer :=
  ⟨HtmlBlock.from_str (r.buffer ++ html)⟩

/-- `finalize` (renderer.rs:318-320). -/
def HtmlRenderer.finalize (r : HtmlRenderer) : HtmlBlock := r.buffer

mutual
/-- `IRNode::accept` (node.rs:219-231), specialized to the one concrete
`Renderer` implementation: begin transition, fold over the children, end
transition. -/
def IRNode.accept (n : IRNode) (renderer : HtmlRenderer) : HtmlRenderer :=
  match n with
  | .mk tag attrs tagtype childs =>
    let renderer_after_begin :=
      renderer.visit_node_begin (.mk tag attrs tagtype childs)
    let renderer_after_children := acceptChildren childs renderer_after_begin
    renderer_after_children.visit_node_end (.mk tag attrs tagtype childs)

/-- The `fold` over `self.childs` inside `IRNode::accept`, unrolled
structurally. -/
def acceptChildren (l : List Element) (renderer : HtmlRenderer) : HtmlRenderer :=
  match l with
  | [] => renderer
  | .Text content :: rest => acceptChildren rest (renderer.visit_text content)
  | .Node irnode :: rest => acceptChildren rest (irnode.accept renderer)
  | .Raw html_block :: rest => acceptChildren rest (renderer.visit_raw html_block)
end

/-! ## elements.rs — the one Void-kind vocabulary element -/

/-- `Img` (elements.rs:361-363). -/
structure Img where
  attrs : SharedAttrs

/-- `Img::new` (elements.rs:379-383): takes an `Attributes<Image>` builder
state, which carries no children parameter. -/
def Img.new (attrs : Attributes) : Img :=
  ⟨SharedAttrs.from_map attrs⟩

/-- `impl Node for Img` (elements.rs:386-395): always `Void` kind with an
empty children vector. -/
def Img.to_irnode (img : Img) : IRNode :=
  IRNode.new (TagName.from_str "img") img.attrs ElementType.Void []

/-! ## Observations used by the claims about escaping -/

/-- A character the escaped representation may expose literally: anything
except `<`, `>`, `"`, and the straight apostrophe. -/
def escapedCharOk (c : Char) : Bool :=
  !(c == '<' || c == '>' || c == dquoteChar || c == squoteChar)

/-- The five replacement strings with their leading ampersand removed. -/
def entityTails : List (List Char) :=
  ["lt;".data, "gt;".data, "amp;".data, "quot;".data, "#39;".data]

/-- Every occurrence of an ampersand starts one of the five replacement
strings: at each position holding a literal ampersand, the rest of the
text begins with one of the five entity tails. -/
def ampAnchored : List Char → Bool
  | [] => true
  | c :: rest =>
    (if c == '&' then entityTails.any (fun t => t.isPrefixOf rest) else true) &&
    ampAnchored rest

/-! ## Spec-side definitions for the locale fallback claims -/

/-- Written from the claim wording for the ambiguous lookup: for each
single character, the first table in the order exact locale, base
language, `"_default"`, `"_common"` that defines a mapping for that
character wins. -/
def claimFallbackChar (r : SanitizationRules) (locale : String) (c : Char) :
    Option Char :=
  (lookupChar ((lookupLocale r.ambiguous_map locale).getD []) c) <|>
  (if strContains locale '-' then
     lookupChar ((lookupLocale r.ambiguous_map (baseLang locale)).getD []) c
   else none) <|>
  (lookupChar ((lookupLocale r.ambiguous_map "_default").getD []) c) <|>
  (lookupChar ((lookupLocale r.ambiguous_map "_common").getD []) c)

/-- The single substitution table the code actually selects, written as
the first *present* table in the order exact locale, base language (when
the locale contains a hyphen), `"_default"`, `"_common"`. -/
def selectedAmbiguousTable (r : SanitizationRules) (locale : String) :
    List (Char × Char) :=
  ((lookupLocale r.ambiguous_map locale) <|>
   (if strContains locale '-' then lookupLocale r.ambiguous_map (baseLang locale)
    else none) <|>
   (lookupLocale r.ambiguous_map "_default") <|>
   (lookupLocale r.ambiguous_map "_common")).getD []

/-- Written from the claim wording for the invisible lookup: the union of
the `"_common"` set with a locale resolution that falls back through
exact locale, base language, and `"_default"`. -/
def claimInvisibleSet (r : SanitizationRules) (locale : String) : List Char :=
  ((lookupLocale r.invisible_chars "_common").getD []) ++
  (((lookupLocale r.invisible_chars locale) <|>
    (if strContains locale '-' then lookupLocale r.invisible_chars (baseLang locale)
     else none) <|>
    (lookupLocale r.invisible_chars "_default")).getD [])

/-- The invisible set the code actually uses: the union of `"_common"`
with exact locale, falling back to base language only — no `"_default"`
tier. -/
def amendedInvisibleSet (r : SanitizationRules) (locale : String) : List Char :=
  ((lookupLocale r.invisible_chars "_common").getD []) ++
  (((lookupLocale r.invisible_chars locale) <|>
    (if strContains locale '-' then lookupLocale r.invisible_chars (baseLang locale)
     else none)).getD [])

/-- Counterexample tables for the ambiguous fallback: the exact-locale
table exists but does not map `a`; `"_default"` does. -/
def rulesAmbiguousCx : SanitizationRules :=
  SanitizationRules.from_files [] [("en", []), ("_default", [('a', 'b')])]

/-- Counterexample tables for the invisible `"_default"` tier: only
`"_default"` carries an invisible character. -/
def rulesInvisibleCx : SanitizationRules :=
  SanitizationRules.from_files [("_default", ['x'])] []

/-- Counterexample tables for the never-removed part: `z` is invisible
for `"_common"` but an ambiguous key for `"en"`. -/
def rulesInvisibleCx2 : SanitizationRules :=
  SanitizationRules.from_files [("_common", ['z'])] [("en", [('z', 'y')])]

/-! ## Spec-side definitions for the smart-quote claim -/

/-- Number of double quotes strictly before position `i`: the
double-quote toggle before processing `i` is exactly the parity of this
count. -/
def dqFlips (chars : List Char) (i : Nat) : Nat :=
  ((List.range i).filter (fun j => chars.getD j ' ' == dquoteChar)).length

/-- Number of toggle-flipping (non-apostrophe) single quotes strictly
before position `i`. -/
def sqFlips (alpha : Char → Bool) (chars : List Char) (i : Nat) : Nat :=
  ((List.range i).filter (fun j =>
    chars.getD j ' ' == squoteChar && !(is_apostrophe alpha chars j))).length

/-- The output character the claim predicts at position `i`: double
quotes alternate on the double-quote parity, apostrophes render as the
closing curly single quote without flipping, other single quotes
alternate on their own parity, everything else passes through. -/
def specChar (alpha : Char → Bool) (chars : List Char) (i : Nat) : Char :=
  let c := chars.getD i ' '
  if c == dquoteChar then
    (if dqFlips chars i % 2 == 1 then '”' else '“')
  else if c == squoteChar then
    (if is_apostrophe alpha chars i then '’'
     else if sqFlips alpha chars i % 2 == 1 then '’' else '‘')
  else c

/-! ## Concrete scenario values -/

/-- The prior shape the class merge folds in, as a membership predicate:
a `Token` contributes itself, a `Set` or `List` contributes its members,
an absent key contributes nothing. -/
def classPrior (m : AttrHashMap) (v : AttrValue) : Prop :=
  match m.get "class" with
  | some (.Token t) => v = t
  | some (.Set s) => v ∈ s
  | some (.List l) => v ∈ l
  | _ => False

/-- An attribute table whose class key holds `Token("btn")`. -/
def btnMap : AttrHashMap := AttrHashMap.new.add "class" (.Token "btn")

/-- A `Void`-kind node with a non-empty children sequence, built through
the general constructor. -/
def badVoidNode : IRNode :=
  IRNode.new (TagName.from_str "br") AttrHashMap.new ElementType.Void
    [Element.Text (Content.from_str "boom" emptyRules)]

/-- Build an attribute table by inserting a list of entries via `add`. -/
def buildMap (l : List (AttrKey × AttrValues)) : AttrHashMap :=
  l.foldl (fun m kv => m.add kv.1 kv.2) AttrHashMap.new

/-- The claim scenario node: void `img` with `src="a.png"`, `alt="A"`. -/
def imgExampleNode : IRNode :=
  (Img.new ((AttrBuilder.image.src (AttrValue.from_str "a.png" emptyRules)).alt
    (AttrValue.from_str "A" emptyRules))).to_irnode

/-! # Theorems -/

/-! ## C1 — escaping -/

theorem escChar_all_ok (c : Char) : (escChar c).all escapedCharOk = true := by
  simp only [escChar]
  split_ifs with h1 h2 h3 h4 h5
  · rfl
  · rfl
  · rfl
  · rfl
  · rfl
  · simp only [List.all_cons, List.all_nil, Bool.and_true, escapedCharOk]
    simp only [Bool.not_eq_true', Bool.or_eq_false_iff]
    exact ⟨⟨⟨by simpa using h1, by simpa using h2⟩, by simpa using h4⟩, by simpa using h5⟩

theorem escapeList_all_ok : ∀ l : List Char, (escapeList l).all escapedCharOk = true
  | [] => rfl
  | c :: rest => by
    rw [escapeList, List.all_append]
    rw [escChar_all_ok c, escapeList_all_ok rest]
    rfl

theorem ampAnchored_escChar_append (c : Char) (l : List Char) :
    ampAnchored (escChar c ++ l) = ampAnchored l := by
  simp only [escChar]
  split_ifs with h1 h2 h3 h4 h5
  · simp [ampAnchored, entityTails, List.isPrefixOf]
  · simp [ampAnchored, entityTails, List.isPrefixOf]
  · simp [ampAnchored, entityTails, List.isPrefixOf]
  · simp [ampAnchored, entityTails, List.isPrefixOf]
  · simp [ampAnchored, entityTails, List.isPrefixOf]
  · have hc : (c == '&') = false := by simpa using h3
    simp [ampAnchored, hc]

theorem escapeList_ampAnchored : ∀ l : List Char, ampAnchored (escapeList l) = true
  | [] => rfl
  | c :: rest => by
    rw [escapeList, ampAnchored_escChar_append, escapeList_ampAnchored rest]

/-- C1: for every input string, `Content::from_str` and
`AttrValue::from_str` produce the same total, never-failing escaping of
the typography-normalized text: the stored representation is the
concatenation of the per-character images, in which the double quote and
the straight apostrophe map to `&quot;` and `&#39;`; the result contains
no literal `<`, `>`, `"`, or `'`, and every `&` in it occurs only as the
first character of one of the five replacements `&lt;`, `&gt;`, `&amp;`,
`&quot;`, `&#39;`. -/
theorem from_str_total_escaping (rule : Rules) (s : String) :
    AttrValue.from_str s rule = Content.from_str s rule ∧
    (Content.from_str s rule).data = escapeList (rule.apply s).data ∧
    escChar dquoteChar = "&quot;".data ∧
    escChar squoteChar = "&#39;".data ∧
    (Content.from_str s rule).data.all escapedCharOk = true ∧
    ampAnchored (Content.from_str s rule).data = true := by
  refine ⟨rfl, rfl, by decide, by decide, ?_, ?_⟩
  · exact escapeList_all_ok _
  · exact escapeList_ampAnchored _

/-! ## C2 — ambiguous-character fallback -/

/-- C2 counterexample: with an existing (empty) exact-locale table and a
`"_default"` table mapping `a` to `b`, the code leaves `a` unchanged even
though the first table in the chain that defines a mapping for `a` is
`"_default"` — the claimed per-character fallback would give `b`. -/
theorem ambiguous_fallback_cx :
    replace_ambiguous_chars rulesAmbiguousCx "en" "a" = "a" ∧
    (claimFallbackChar rulesAmbiguousCx "en" 'a').getD 'a' = 'b' := by
  decide

theorem get_ambiguous_pairs_eq_selected (r : SanitizationRules) (locale : String) :
    r.get_ambiguous_pairs locale = selectedAmbiguousTable r locale := by
  unfold SanitizationRules.get_ambiguous_pairs selectedAmbiguousTable
  cases h1 : lookupLocale r.ambiguous_map locale <;>
    cases h2 : (if strContains locale '-' then
        lookupLocale r.ambiguous_map (baseLang locale) else none) <;>
    cases h3 : lookupLocale r.ambiguous_map "_default" <;>
    cases h4 : lookupLocale r.ambiguous_map "_common" <;>
    simp [h1, h2, h3, h4]

/-- C2 amended: the fallback picks a whole table, not a character at a
time — each character is replaced using the first table *present* in the
order exact locale, base language (when the locale contains a hyphen),
`"_default"`, `"_common"`; a character the selected table does not map
passes through unchanged. -/
theorem ambiguous_table_level_fallback (r : SanitizationRules) (locale : String)
    (input : String) :
    r.get_ambiguous_pairs locale = selectedAmbiguousTable r locale ∧
    (replace_ambiguous_chars r locale input).data =
      input.data.map (fun c => (lookupChar (selectedAmbiguousTable r locale) c).getD c) := by
  refine ⟨get_ambiguous_pairs_eq_selected r locale, ?_⟩
  simp only [replace_ambiguous_chars, lookupChar, get_ambiguous_pairs_eq_selected]

/-! ## C3 — invisible-character removal -/

/-- C3 counterexample, both failing parts: (1) an invisible character
listed only under `"_default"` is not removed for locale `en`, though the
claimed fallback chain includes the `"_default"` tier; (2) the character
`z`, a key of the ambiguous mapping resolved for locale `en`, is
nevertheless removed because it sits in the `"_common"` invisible set. -/
theorem invisible_fallback_cx :
    (remove_invisible_chars rulesInvisibleCx "en" "x" = "x" ∧
     (claimInvisibleSet rulesInvisibleCx "en").contains 'x' = true) ∧
    (remove_invisible_chars rulesInvisibleCx2 "en" "z" = "" ∧
     (lookupChar (rulesInvisibleCx2.get_ambiguous_pairs "en") 'z').isSome = true) := by
  decide

theorem get_invisible_chars_eq_amended (r : SanitizationRules) (locale : String) :
    r.get_invisible_chars locale = amendedInvisibleSet r locale := by
  unfold SanitizationRules.get_invisible_chars amendedInvisibleSet
  cases h1 : lookupLocale r.invisible_chars locale
  · by_cases h0 : strContains locale '-' = true
    · cases h2 : lookupLocale r.invisible_chars (baseLang locale) <;> simp [h1, h0, h2]
    · simp [h1, h0]
  · simp [h1]

theorem from_files_strips_ambiguous_keys
    (invisible_data : List (String × List Char))
    (ambiguous_data : List (String × List (Char × Char)))
    (L : String) (t : List (Char × Char)) (s : List Char) (c : Char)
    (hamb : lookupLocale ambiguous_data L = some t)
    (hinv : lookupLocale
      (SanitizationRules.from_files invisible_data ambiguous_data).invisible_chars L
      = some s)
    (hkey : (lookupChar t c).isSome) : s.contains c = false := by
  have hpred : ((fun p : String × List Char => p.1 == L) ∘
      stripAmbiguousKeys ambiguous_data) = (fun q : String × List Char => q.1 == L) :=
    funext fun q => rfl
  simp only [SanitizationRules.from_files, lookupLocale, List.find?_map, hpred] at hinv
  rcases hq : invisible_data.find? (fun q => q.1 == L) with _ | q
  · rw [hq] at hinv
    simp at hinv
  · rw [hq] at hinv
    have hqL : q.1 = L := by
      have := List.find?_some hq
      simpa using this
    have hs : s = (stripAmbiguousKeys ambiguous_data q).2 := by
      have h' : some (stripAmbiguousKeys ambiguous_data q).2 = some s := by
        simpa using hinv
      exact (Option.some_inj.mp h').symm
    rw [hs, stripAmbiguousKeys, hqL, hamb]
    have hnm : ¬ c ∈ q.2.filter (fun c => (lookupChar t c).isNone) := by
      intro hmem
      have hnone := (List.mem_filter.mp hmem).2
      simp only [Option.isNone_iff_eq_none, decide_eq_true_eq] at hnone
      rw [hnone] at hkey
      simp at hkey
    simpa using hnm

/-- C3 amended: the removal set is exactly the union of the `"_common"`
set with the exact-locale set, falling back to the base language only —
the chain has no `"_default"` tier; and the construction-time
deduplication guarantees that the invisible set stored under a locale
`L` excludes every key of the ambiguous table stored under the same `L`
(a character can still be removed through the set of a *different*
locale name, such as `"_common"`). -/
theorem invisible_union_no_default_and_strip :
    (∀ (r : SanitizationRules) (locale input : String),
       r.get_invisible_chars locale = amendedInvisibleSet r locale ∧
       (remove_invisible_chars r locale input).data =
         input.data.filter (fun c => !(amendedInvisibleSet r locale).contains c)) ∧
    (∀ (invisible_data : List (String × List Char))
       (ambiguous_data : List (String × List (Char × Char)))
       (L : String) (t : List (Char × Char)) (s : List Char) (c : Char),
       lookupLocale ambiguous_data L = some t →
       lookupLocale
         (SanitizationRules.from_files invisible_data ambiguous_data).invisible_chars L
         = some s →
       (lookupChar t c).isSome → s.contains c = false) := by
  constructor
  · intro r locale input
    refine ⟨get_invisible_chars_eq_amended r locale, ?_⟩
    simp only [remove_invisible_chars, get_invisible_chars_eq_amended]
  · intro invisible_data ambiguous_data L t s c hamb hinv hkey
    exact from_files_strips_ambiguous_keys invisible_data ambiguous_data L t s c
      hamb hinv hkey

/-- Witness for the amended C3 statement at concrete data: the stored
`en` invisible set loses the ambiguous key `z` and keeps `w`. -/
theorem invisible_union_no_default_and_strip_witness :
    (['w'] : List Char).contains 'z' = false :=
  invisible_union_no_default_and_strip.2 [("en", ['z', 'w'])] [("en", [('z', 'y')])]
    "en" [('z', 'y')] ['w'] 'z' (by decide) (by decide) (by decide)

/-! ## C4 — the Void children invariant -/

/-- C4 counterexample: `IRNode::new` performs no validation, so a
`Void`-kind node carrying a text child is constructible through the
general constructor — the invariant is *not* established by every
construction path. -/
theorem void_children_cx :
    badVoidNode.get_type = ElementType.Void ∧ badVoidNode.childs.length = 1 :=
  ⟨rfl, rfl⟩

/-- C4 amended: the empty-children invariant for `Void` nodes is
established by the vocabulary constructors — `Img`, the only void-kind
element, accepts no children parameter and always builds a `Void` node
with an empty children sequence — while the general `IRNode` constructor
stores whatever children it is given, without any check. -/
theorem void_invariant_amended :
    (∀ attrs : Attributes, ((Img.new attrs).to_irnode).get_type = ElementType.Void ∧
       ((Img.new attrs).to_irnode).childs = []) ∧
    (∀ (tag : TagName) (attrs : SharedAttrs) (ty : ElementType)
       (childs : List Element), (IRNode.new tag attrs ty childs).childs = childs) :=
  ⟨fun _ => ⟨rfl, rfl⟩, fun _ _ _ _ => rfl⟩

/-! ## C5 — smart-quote normalization -/

theorem parity_flip (n : Nat) : ((n + 1) % 2 == 1) = !(n % 2 == 1) := by
  rcases Nat.mod_two_eq_zero_or_one n with h | h
  · have h2 : (n + 1) % 2 = 1 := by omega
    simp [h, h2]
  · have h2 : (n + 1) % 2 = 0 := by omega
    simp [h, h2]

theorem dqFlips_succ (chars : List Char) (i : Nat) :
    dqFlips chars (i + 1) =
      dqFlips chars i + (if chars.getD i ' ' == dquoteChar then 1 else 0) := by
  unfold dqFlips
  rw [List.range_succ, List.filter_append, List.length_append, List.filter_singleton]
  by_cases h : chars.getD i ' ' == dquoteChar
  · simp only [h, if_true]
    rfl
  · simp only [Bool.not_eq_true] at h
    simp only [h]
    rfl

theorem sqFlips_succ (alpha : Char → Bool) (chars : List Char) (i : Nat) :
    sqFlips alpha chars (i + 1) =
      sqFlips alpha chars i +
        (if chars.getD i ' ' == squoteChar && !(is_apostrophe alpha chars i)
         then 1 else 0) := by
  unfold sqFlips
  rw [List.range_succ, List.filter_append, List.length_append, List.filter_singleton]
  by_cases h : chars.getD i ' ' == squoteChar && !(is_apostrophe alpha chars i)
  · simp only [h, if_true]
    rfl
  · simp only [Bool.not_eq_true] at h
    simp only [h]
    rfl

/-- The scan state after the first `i` positions: the emitted prefix is
position-wise the predicted character, and the two toggles are exactly
the parities of the flip counts so far. -/
theorem punc_fold_inv (alpha : Char → Bool) (chars : List Char) :
    ∀ i, (List.range i).foldl (puncStep alpha chars) ([], false, false) =
      ((List.range i).map (specChar alpha chars),
       dqFlips chars i % 2 == 1,
       sqFlips alpha chars i % 2 == 1)
  | 0 => rfl
  | i + 1 => by
    rw [List.range_succ, List.foldl_append, punc_fold_inv alpha chars i,
      List.map_append]
    simp only [List.foldl_cons, List.foldl_nil, List.map_cons, List.map_nil]
    rw [dqFlips_succ, sqFlips_succ]
    unfold puncStep specChar
    generalize chars.getD i ' ' = c
    by_cases h1 : c == dquoteChar
    · have hc : c = dquoteChar := by simpa using h1
      subst hc
      have hds : (dquoteChar == squoteChar) = false := by decide
      simp [hds, parity_flip]
    · simp only [Bool.not_eq_true] at h1
      by_cases h2 : c == squoteChar
      · by_cases h3 : is_apostrophe alpha chars i
        · simp [h1, h2, h3]
        · simp only [Bool.not_eq_true] at h3
          simp [h1, h2, h3, parity_flip]
      · simp only [Bool.not_eq_true] at h2
        simp [h1, h2]

/-- C5: position `i` of the normalized text is: for a double quote, the
opening or closing curly double quote by the parity of the double quotes
before it (each one flips the dedicated toggle); for a single quote
between two alphabetic neighbours, the closing curly single quote with
the single-quote parity left untouched; for any other single quote, the
curly single quote chosen by the parity of the non-apostrophe single
quotes before it; any other character is unchanged.  A quote at the
first or last position is never classified as an apostrophe, and on
`It's a "test"` the apostrophe becomes `’` while the two double quotes
become `“` and `”`. -/
theorem punctuation_rule_correct :
    (∀ (alpha : Char → Bool) (input : String),
       (punctuation_rule alpha input).data =
         (List.range input.data.length).map (specChar alpha input.data)) ∧
    (∀ (alpha : Char → Bool) (chars : List Char),
       is_apostrophe alpha chars 0 = false ∧
       is_apostrophe alpha chars (chars.length - 1) = false) ∧
    punctuation_rule Char.isAlpha "It\x27s a \"test\"" = "It’s a “test”" := by
  refine ⟨?_, ?_, by decide⟩
  · intro alpha input
    simp only [punctuation_rule]
    rw [punc_fold_inv]
  · intro alpha chars
    constructor
    · simp [is_apostrophe]
    · unfold is_apostrophe
      rw [if_neg]
      rintro ⟨g1, g2⟩
      omega


/-! ## C6 — class-like accumulation -/


theorem find?_filter_ne (k k' : AttrKey) (hkk : k' ≠ k) :
    ∀ l : List (AttrKey × AttrValues),
      (l.filter (fun p => p.1 != k)).find? (fun p => p.1 == k') =
        l.find? (fun p => p.1 == k')
  | [] => rfl
  | p :: rest => by
    by_cases hp : (p.1 == k') = true
    · have hp1 : p.1 = k' := by simpa using hp
      have hpk : (p.1 != k) = true := by simp [hp1, hkk]
      rw [List.filter_cons, if_pos hpk]
      simp only [List.find?_cons, hp]
    · have hp' : (p.1 == k') = false := by simpa using hp
      by_cases hpk : (p.1 != k) = true
      · rw [List.filter_cons, if_pos hpk]
        simp only [List.find?_cons, hp']
        exact find?_filter_ne k k' hkk rest
      · rw [List.filter_cons, if_neg hpk]
        simp only [List.find?_cons, hp']
        exact find?_filter_ne k k' hkk rest

theorem get_add_self (m : AttrHashMap) (k : AttrKey) (v : AttrValues) :
    (m.add k v).get k = some v := by
  unfold AttrHashMap.add AttrHashMap.get
  rw [List.find?_append]
  have h1 : (m.table.filter (fun p => p.1 != k)).find? (fun p => p.1 == k) = none := by
    rw [List.find?_eq_none]
    intro x hx
    have hx2 := (List.mem_filter.mp hx).2
    simpa using hx2
  rw [h1]
  simp

theorem get_add_other (m : AttrHashMap) (k k' : AttrKey) (v : AttrValues)
    (h : k' ≠ k) : (m.add k v).get k' = m.get k' := by
  unfold AttrHashMap.add AttrHashMap.get
  rw [List.find?_append, find?_filter_ne k k' h]
  cases hf : m.table.find? (fun p => p.1 == k') <;> simp [hf, Ne.symm h]

theorem setInsert_mem (s : List AttrValue) (a v : AttrValue) :
    v ∈ setInsert s a ↔ v ∈ s ∨ v = a := by
  unfold setInsert
  by_cases h : s.contains a
  · rw [if_pos h]
    have ha : a ∈ s := by simpa using h
    constructor
    · exact Or.inl
    · rintro (hv | rfl)
      · exact hv
      · exact ha
  · rw [if_neg h]
    simp

theorem setExtend_mem : ∀ (vs s : List AttrValue) (v : AttrValue),
    v ∈ setExtend s vs ↔ v ∈ s ∨ v ∈ vs
  | [], s, v => by simp [setExtend]
  | a :: rest, s, v => by
    have hstep : setExtend s (a :: rest) = setExtend (setInsert s a) rest := rfl
    rw [hstep, setExtend_mem rest (setInsert s a) v, setInsert_mem, List.mem_cons]
    exact or_assoc



/-- C6: the class-like accumulation fails loudly (the `unreachable!`
panic, modelled as `none`) exactly when the prior value at the class key
is a `Bool` flag; on every other prior shape it returns a collection
whose class value is a `Set` holding exactly the union of the incoming
set with the prior value folded in (`Token` as a singleton, `Set`/`List`
by their members, absent key contributing nothing), leaving every other
key untouched; and merging prior `Token("btn")` with incoming
`{"primary"}` serializes as ` class="btn primary"`. -/
theorem class_merge_correct :
    (∀ (m : AttrHashMap) (incoming : List AttrValue),
       (Attributes.classMerge m incoming = none ↔
         ∃ b, m.get "class" = some (.Bool b))) ∧
    (∀ (m : AttrHashMap) (incoming : List AttrValue) (result : AttrHashMap),
       Attributes.classMerge m incoming = some result →
       ∃ s, result.get "class" = some (.Set s) ∧
         (∀ v, v ∈ s ↔ v ∈ incoming ∨ classPrior m v) ∧
         (∀ k, k ≠ "class" → result.get k = m.get k)) ∧
    (∃ r, Attributes.classMerge btnMap ["primary"] = some r ∧
       r.into_string = " class=\"btn primary\"") := by
  refine ⟨?_, ?_, ⟨⟨[("class", .Set ["primary", "btn"])]⟩, by decide, by decide⟩⟩
  · intro m incoming
    rcases h : m.get "class" with _ | v
    · simp [Attributes.classMerge, AttrKey.from_str, h]
    · cases v <;> simp [Attributes.classMerge, AttrKey.from_str, h]
  · intro m incoming result hres
    rcases h : m.get "class" with _ | v
    · simp only [Attributes.classMerge, AttrKey.from_str, h] at hres
      cases hres
      refine ⟨incoming, get_add_self m "class" _, fun v => ?_,
        fun k hk => get_add_other m "class" k _ hk⟩
      simp [classPrior, h]
    · cases v with
      | Token t =>
        simp only [Attributes.classMerge, AttrKey.from_str, h] at hres
        cases hres
        refine ⟨setInsert incoming t, get_add_self m "class" _, fun v => ?_,
          fun k hk => get_add_other m "class" k _ hk⟩
        rw [setInsert_mem]
        simp [classPrior, h]
      | Bool b =>
        simp [Attributes.classMerge, AttrKey.from_str, h] at hres
      | Set s0 =>
        simp only [Attributes.classMerge, AttrKey.from_str, h] at hres
        cases hres
        refine ⟨setExtend incoming s0, get_add_self m "class" _, fun v => ?_,
          fun k hk => get_add_other m "class" k _ hk⟩
        rw [setExtend_mem]
        simp [classPrior, h]
      | List l0 =>
        simp only [Attributes.classMerge, AttrKey.from_str, h] at hres
        cases hres
        refine ⟨setExtend incoming l0, get_add_self m "class" _, fun v => ?_,
          fun k hk => get_add_other m "class" k _ hk⟩
        rw [setExtend_mem]
        simp [classPrior, h]

theorem class_merge_correct_witness :
    ∃ s, (AttrHashMap.mk [("class", AttrValues.Set ["a"])]).get "class"
        = some (.Set s) ∧
      (∀ v, v ∈ s ↔ v ∈ ["a"] ∨ classPrior AttrHashMap.new v) ∧
      (∀ k, k ≠ "class" →
        (AttrHashMap.mk [("class", AttrValues.Set ["a"])]).get k
          = AttrHashMap.new.get k) :=
  class_merge_correct.2.1 AttrHashMap.new ["a"]
    ⟨[("class", AttrValues.Set ["a"])]⟩ (by decide)



/-! ## C7 — deterministic serialization -/


theorem buildMap_go : ∀ (l : List (AttrKey × AttrValues)) (acc : AttrHashMap),
    ((acc.table ++ l).map Prod.fst).Nodup →
    (l.foldl (fun m kv => m.add kv.1 kv.2) acc).table = acc.table ++ l
  | [], acc, _ => by simp
  | (k, v) :: rest, acc, hnd => by
    have hkfresh : ∀ p ∈ acc.table, (p.1 != k) = true := by
      intro p hp
      have hk : k ∉ acc.table.map Prod.fst := by
        rw [List.map_append] at hnd
        have hdis := List.disjoint_of_nodup_append hnd
        intro hmem
        exact hdis hmem (by simp)
      simp only [bne_iff_ne, ne_eq]
      intro hpk
      exact hk (hpk ▸ List.mem_map_of_mem Prod.fst hp)
    have hstep : (AttrHashMap.add acc k v).table = acc.table ++ [(k, v)] := by
      unfold AttrHashMap.add
      rw [List.filter_eq_self.mpr hkfresh]
    have hnd' : (((AttrHashMap.add acc k v).table ++ rest).map Prod.fst).Nodup := by
      rw [hstep, List.append_assoc]
      simpa using hnd
    calc ((((k, v) :: rest).foldl (fun m kv => m.add kv.1 kv.2) acc)).table
        = (rest.foldl (fun m kv => m.add kv.1 kv.2) (acc.add k v)).table := rfl
      _ = (AttrHashMap.add acc k v).table ++ rest := buildMap_go rest (acc.add k v) hnd'
      _ = acc.table ++ (k, v) :: rest := by rw [hstep, List.append_assoc]; rfl

theorem buildMap_table (l : List (AttrKey × AttrValues))
    (hnd : (l.map Prod.fst).Nodup) : (buildMap l).table = l := by
  have := buildMap_go l AttrHashMap.new (by simpa using hnd)
  simpa [buildMap, AttrHashMap.new] using this

theorem sorted_nodupkeys_perm_eq : ∀ (s1 s2 : List (AttrKey × AttrValues)),
    s1.Perm s2 → List.Sorted entryLe s1 → List.Sorted entryLe s2 →
    (s1.map Prod.fst).Nodup → s1 = s2
  | [], s2, hperm, _, _, _ => (hperm.nil_eq).symm ▸ rfl
  | a :: t1, [], hperm, _, _, _ => by
    exact absurd hperm.symm.nil_eq (by simp)
  | a :: t1, b :: t2, hperm, hs1, hs2, hnd => by
    by_cases heq : a = b
    · subst heq
      have htail := hperm.cons_inv
      have ht1 := (List.sorted_cons.mp hs1).2
      have ht2 := (List.sorted_cons.mp hs2).2
      have hndt : (t1.map Prod.fst).Nodup := by
        simpa using (List.nodup_cons.mp (by simpa using hnd)).2
      rw [sorted_nodupkeys_perm_eq t1 t2 htail ht1 ht2 hndt]
    · have hab : a ∈ b :: t2 := hperm.subset (List.mem_cons_self a t1)
      have hat2 : a ∈ t2 := (List.mem_cons.mp hab).resolve_left heq
      have hba : b ∈ a :: t1 := hperm.symm.subset (List.mem_cons_self b t2)
      have hbt1 : b ∈ t1 := (List.mem_cons.mp hba).resolve_left (fun h => heq h.symm)
      have hle1 : entryLe a b := (List.sorted_cons.mp hs1).1 b hbt1
      have hle2 : entryLe b a := (List.sorted_cons.mp hs2).1 a hat2
      have hkeq : a.1 = b.1 :=
        String.ext (listLe_antisymm a.1.data b.1.data hle1 hle2)
      have hmem : a.1 ∈ t1.map Prod.fst := by
        rw [hkeq]
        exact List.mem_map_of_mem Prod.fst hbt1
      have hna : a.1 ∉ t1.map Prod.fst :=
        (List.nodup_cons.mp (by simpa using hnd)).1
      exact absurd hmem hna

theorem insertionSort_eq_of_perm (l1 l2 : List (AttrKey × AttrValues))
    (hperm : l1.Perm l2) (hnd : (l1.map Prod.fst).Nodup) :
    l1.insertionSort entryLe = l2.insertionSort entryLe := by
  apply sorted_nodupkeys_perm_eq
  · exact (List.perm_insertionSort entryLe l1).trans
      (hperm.trans (List.perm_insertionSort entryLe l2).symm)
  · exact List.sorted_insertionSort entryLe l1
  · exact List.sorted_insertionSort entryLe l2
  · exact ((List.perm_insertionSort entryLe l1).map Prod.fst).nodup_iff.mpr hnd



/-- C7: serializing a collection built by `add` from distinct-keyed
entries is insertion-order invariant (byte identical for any two
insertion orders), and the output renders the entries sorted by key,
each prefixed by one space: `Token` as ` key="value"`, `Bool(true)` as
the bare key, `Bool(false)` as nothing, `Set` skipped when empty and
otherwise rendered with its members sorted lexicographically and joined
by single spaces, and `List` as nothing. -/
theorem serialize_order_invariant :
    (∀ (l1 l2 : List (AttrKey × AttrValues)), l1.Perm l2 →
       (l1.map Prod.fst).Nodup →
       (buildMap l1).into_string = (buildMap l2).into_string) ∧
    (∀ (l : List (AttrKey × AttrValues)), (l.map Prod.fst).Nodup →
       List.Sorted entryLe (l.insertionSort entryLe) ∧
       (l.insertionSort entryLe).Perm l ∧
       (buildMap l).into_string =
         String.join ((l.insertionSort entryLe).map renderEntry)) ∧
    (∀ (s : List AttrValue),
       List.Sorted strLeP (s.insertionSort strLeP) ∧
       (s.insertionSort strLeP).Perm s) ∧
    (∀ (k : AttrKey) (v : AttrValue) (s ls : List AttrValue),
       renderEntry (k, .Token v) = " " ++ k ++ "=\"" ++ v ++ "\"" ∧
       renderEntry (k, .Bool true) = " " ++ k ∧
       renderEntry (k, .Bool false) = "" ∧
       renderEntry (k, .Set []) = "" ∧
       (s ≠ [] → renderEntry (k, .Set s) =
         " " ++ k ++ "=\"" ++
           String.intercalate " " (s.insertionSort strLeP) ++ "\"") ∧
       renderEntry (k, .List ls) = "") := by
  refine ⟨?_, ?_, ?_, ?_⟩
  · intro l1 l2 hperm hnd
    unfold AttrHashMap.into_string
    rw [buildMap_table l1 hnd,
      buildMap_table l2 (((hperm.map Prod.fst).nodup_iff).mp hnd),
      insertionSort_eq_of_perm l1 l2 hperm hnd]
  · intro l hnd
    refine ⟨List.sorted_insertionSort entryLe l, List.perm_insertionSort entryLe l, ?_⟩
    unfold AttrHashMap.into_string
    rw [buildMap_table l hnd]
  · intro s
    exact ⟨List.sorted_insertionSort strLeP s, List.perm_insertionSort strLeP s⟩
  · intro k v s ls
    refine ⟨rfl, rfl, rfl, rfl, ?_, rfl⟩
    intro hs
    cases s with
    | nil => exact absurd rfl hs
    | cons a t => rfl

/-- Witness: inserting two concrete entries in either order serializes
identically. -/
theorem serialize_order_invariant_witness :
    (buildMap [("b", AttrValues.Bool true), ("a", AttrValues.Token "x")]).into_string
      = (buildMap [("a", AttrValues.Token "x"), ("b", AttrValues.Bool true)]).into_string :=
  serialize_order_invariant.1 _ _ (by decide) (by decide)



/-! ## C8 — merge policies -/


theorem find?_singleton_ne (k k0 : AttrKey) (v0 : AttrValues) (h : k ≠ k0) :
    List.find? (fun p => p.1 == k) [(k0, v0)] = none := by
  simp [List.find?, show (k0 == k) = false by simpa using Ne.symm h]

theorem keep_fold_find? (k : AttrKey) :
    ∀ (bs t : List (AttrKey × AttrValues)),
      (bs.foldl keepStep t).find? (fun p => p.1 == k) =
        ((t.find? (fun p => p.1 == k)).orElse
          (fun _ => bs.find? (fun p => p.1 == k)))
  | [], t => by cases h : t.find? (fun p => p.1 == k) <;> simp [h, Option.orElse]
  | (k0, v0) :: rest, t => by
    have hstep : (((k0, v0) :: rest).foldl keepStep t) =
        rest.foldl keepStep (keepStep t (k0, v0)) := rfl
    rw [hstep, keep_fold_find? k rest (keepStep t (k0, v0))]
    unfold keepStep
    by_cases h0 : (t.find? (fun p => p.1 == k0)).isSome
    · rw [if_pos h0]
      by_cases hk : k = k0
      · subst hk
        rcases ht : t.find? (fun p => p.1 == k) with _ | w
        · rw [ht] at h0
          simp at h0
        · simp [ht, Option.orElse]
      · rcases ht : t.find? (fun p => p.1 == k) with _ | w <;>
          simp [Option.orElse, List.find?_cons, show (k0 == k) = false by
            simpa using Ne.symm hk]
    · rw [if_neg h0]
      rw [List.find?_append]
      by_cases hk : k = k0
      · subst hk
        have ht : t.find? (fun p => p.1 == k) = none := by
          rcases ht : t.find? (fun p => p.1 == k) with _ | w
          · exact ht
          · rw [ht] at h0
            simp at h0
        simp [ht, Option.orElse, List.find?]
      · rw [find?_singleton_ne k k0 v0 hk]
        rcases ht : t.find? (fun p => p.1 == k) with _ | w <;>
          simp [Option.orElse, List.find?_cons, show (k0 == k) = false by
            simpa using Ne.symm hk]

theorem force_fold_find? (k : AttrKey) :
    ∀ (bs t : List (AttrKey × AttrValues)), (bs.map Prod.fst).Nodup →
      (bs.foldl forceStep t).find? (fun p => p.1 == k) =
        ((bs.find? (fun p => p.1 == k)).orElse
          (fun _ => t.find? (fun p => p.1 == k)))
  | [], t, _ => by cases h : t.find? (fun p => p.1 == k) <;> simp [h, Option.orElse]
  | (k0, v0) :: rest, t, hnd => by
    have hstep : (((k0, v0) :: rest).foldl forceStep t) =
        rest.foldl forceStep (forceStep t (k0, v0)) := rfl
    have hndr : (rest.map Prod.fst).Nodup := (List.nodup_cons.mp (by simpa using hnd)).2
    rw [hstep, force_fold_find? k rest (forceStep t (k0, v0)) hndr]
    unfold forceStep
    by_cases hk : k = k0
    · subst hk
      have hfilter : (t.filter (fun p => p.1 != k)).find? (fun p => p.1 == k) = none := by
        rw [List.find?_eq_none]
        intro x hx
        have hx2 := (List.mem_filter.mp hx).2
        simpa using hx2
      have hrest : rest.find? (fun p => p.1 == k) = none := by
        rw [List.find?_eq_none]
        intro x hx
        have hknotin : k ∉ rest.map Prod.fst := (List.nodup_cons.mp (by simpa using hnd)).1
        intro hpk
        have : x.1 = k := by simpa using hpk
        exact hknotin (this ▸ List.mem_map_of_mem Prod.fst hx)
      rw [List.find?_append, hfilter, hrest]
      simp [Option.orElse, List.find?]
    · rw [List.find?_append, find?_filter_ne k0 k (fun h => hk h) t,
        find?_singleton_ne k k0 v0 hk]
      rcases ht : t.find? (fun p => p.1 == k) with _ | w <;>
        rcases hr : rest.find? (fun p => p.1 == k) with _ | w2 <;>
        simp [ht, hr, Option.orElse, List.find?_cons, show (k0 == k) = false by
          simpa using Ne.symm hk]



theorem merge_keep_get (A B : AttrHashMap) (k : AttrKey) :
    (A.merge B .Keep).get k = (A.get k).orElse (fun _ => B.get k) := by
  unfold AttrHashMap.merge AttrHashMap.get
  rw [keep_fold_find? k B.table A.table]
  rcases h : A.table.find? (fun p => p.1 == k) with _ | w <;> simp [h, Option.orElse]

theorem merge_force_get (A B : AttrHashMap) (k : AttrKey)
    (hnd : (B.table.map Prod.fst).Nodup) :
    (A.merge B .Force).get k = (B.get k).orElse (fun _ => A.get k) := by
  unfold AttrHashMap.merge AttrHashMap.get
  rw [force_fold_find? k B.table A.table hnd]
  rcases h : B.table.find? (fun p => p.1 == k) with _ | w <;> simp [h, Option.orElse]

/-- C8: merging `B` into `A` under `Keep` leaves every key already
present in `A` at its old value and only fills keys absent from `A`
with `B`'s value; under `Force` every key of `B` takes `B`'s value; a
key present in only one collection keeps its original value under
either policy. -/
theorem merge_policies_correct (A B : AttrHashMap) (k : AttrKey)
    (hnd : (B.table.map Prod.fst).Nodup) :
    (A.merge B .Keep).get k = (A.get k).orElse (fun _ => B.get k) ∧
    (A.merge B .Force).get k = (B.get k).orElse (fun _ => A.get k) ∧
    (∀ v, A.get k = some v → (A.merge B .Keep).get k = some v) ∧
    (∀ v, B.get k = some v → (A.merge B .Force).get k = some v) ∧
    (A.get k = none → (A.merge B .Keep).get k = B.get k) ∧
    (B.get k = none → (A.merge B .Force).get k = A.get k) ∧
    (B.get k = none → (A.merge B .Keep).get k = A.get k) ∧
    (A.get k = none → (A.merge B .Force).get k = B.get k) := by
  have hkeep := merge_keep_get A B k
  have hforce := merge_force_get A B k hnd
  refine ⟨hkeep, hforce, ?_, ?_, ?_, ?_, ?_, ?_⟩
  · intro v hv
    rw [hkeep, hv]
    rfl
  · intro v hv
    rw [hforce, hv]
    rfl
  · intro hv
    rw [hkeep, hv]
    rfl
  · intro hv
    rw [hforce, hv]
    rfl
  · intro hv
    rw [hkeep, hv]
    rcases h : A.get k with _ | w <;> simp [Option.orElse]
  · intro hv
    rw [hforce, hv]
    rcases h : B.get k with _ | w <;> simp [Option.orElse]

/-- Witness: `Keep` keeps `A`'s `Token "1"` at the shared key `x`. -/
theorem merge_policies_correct_witness :
    ((buildMap [("x", AttrValues.Token "1")]).merge
        (buildMap [("x", AttrValues.Token "2"), ("y", AttrValues.Bool true)])
        MergeMode.Keep).get "x"
      = (((buildMap [("x", AttrValues.Token "1")]).get "x").orElse
          (fun _ => (buildMap [("x", AttrValues.Token "2"),
            ("y", AttrValues.Bool true)]).get "x")) :=
  (merge_policies_correct _ _ "x" (by decide)).1



/-! ## C9, C10 — the HTML renderer -/


theorem accept_mk (tag : TagName) (attrs : SharedAttrs) (ty : ElementType)
    (childs : List Element) (r : HtmlRenderer) :
    (IRNode.mk tag attrs ty childs).accept r =
      HtmlRenderer.visit_node_end
        (acceptChildren childs
          (HtmlRenderer.visit_node_begin r (IRNode.mk tag attrs ty childs)))
        (IRNode.mk tag attrs ty childs) := rfl

theorem visit_begin_shift (r : HtmlRenderer) (n : IRNode) :
    (HtmlRenderer.visit_node_begin r n).buffer =
      r.buffer ++ (HtmlRenderer.visit_node_begin HtmlRenderer.new n).buffer := by
  cases n with
  | mk tag attrs ty childs =>
    cases ty <;>
      (apply String.ext
       simp [HtmlRenderer.visit_node_begin, IRNode.get_tag, IRNode.get_attrs,
         IRNode.get_type, HtmlRenderer.new, HtmlBlock.from_str, String.data_append,
         String.data_push])

theorem visit_end_shift (r : HtmlRenderer) (n : IRNode) :
    (HtmlRenderer.visit_node_end r n).buffer =
      r.buffer ++ (HtmlRenderer.visit_node_end HtmlRenderer.new n).buffer := by
  cases n with
  | mk tag attrs ty childs =>
    cases ty <;>
      (apply String.ext
       simp [HtmlRenderer.visit_node_end, IRNode.get_tag, IRNode.get_type,
         HtmlRenderer.new, HtmlBlock.from_str, String.data_append, String.data_push])

theorem visit_text_shift (r : HtmlRenderer) (c : Content) :
    (HtmlRenderer.visit_text r c).buffer =
      r.buffer ++ (HtmlRenderer.visit_text HtmlRenderer.new c).buffer := by
  apply String.ext
  simp [HtmlRenderer.visit_text, HtmlRenderer.new, HtmlBlock.from_str,
    String.data_append]

theorem visit_raw_shift (r : HtmlRenderer) (h : HtmlBlock) :
    (HtmlRenderer.visit_raw r h).buffer =
      r.buffer ++ (HtmlRenderer.visit_raw HtmlRenderer.new h).buffer := by
  apply String.ext
  simp [HtmlRenderer.visit_raw, HtmlRenderer.new, HtmlBlock.from_str,
    String.data_append]

mutual
theorem accept_shift (n : IRNode) (r : HtmlRenderer) :
    (n.accept r).buffer = r.buffer ++ (n.accept HtmlRenderer.new).buffer := by
  cases n with
  | mk tag attrs ty childs =>
    rw [accept_mk tag attrs ty childs r, accept_mk tag attrs ty childs HtmlRenderer.new]
    rw [visit_end_shift (acceptChildren childs (HtmlRenderer.visit_node_begin r
          (IRNode.mk tag attrs ty childs))) (IRNode.mk tag attrs ty childs),
      visit_end_shift (acceptChildren childs (HtmlRenderer.visit_node_begin
          HtmlRenderer.new (IRNode.mk tag attrs ty childs)))
        (IRNode.mk tag attrs ty childs)]
    rw [acceptChildren_shift childs (HtmlRenderer.visit_node_begin r
        (IRNode.mk tag attrs ty childs)),
      acceptChildren_shift childs (HtmlRenderer.visit_node_begin HtmlRenderer.new
        (IRNode.mk tag attrs ty childs))]
    rw [visit_begin_shift r (IRNode.mk tag attrs ty childs)]
    apply String.ext
    simp [String.data_append]

theorem acceptChildren_shift (l : List Element) (r : HtmlRenderer) :
    (acceptChildren l r).buffer =
      r.buffer ++ (acceptChildren l HtmlRenderer.new).buffer := by
  cases l with
  | nil =>
    have h0 : ("" : String).data = [] := rfl
    apply String.ext
    simp [acceptChildren, HtmlRenderer.new, HtmlBlock.from_str, String.data_append, h0]
  | cons e rest =>
    cases e with
    | Text c =>
      show (acceptChildren rest (HtmlRenderer.visit_text r c)).buffer =
        r.buffer ++ (acceptChildren rest
          (HtmlRenderer.visit_text HtmlRenderer.new c)).buffer
      rw [acceptChildren_shift rest (HtmlRenderer.visit_text r c),
        acceptChildren_shift rest (HtmlRenderer.visit_text HtmlRenderer.new c),
        visit_text_shift r c]
      apply String.ext
      simp [String.data_append]
    | Node n =>
      show (acceptChildren rest (n.accept r)).buffer =
        r.buffer ++ (acceptChildren rest (n.accept HtmlRenderer.new)).buffer
      rw [acceptChildren_shift rest (n.accept r),
        acceptChildren_shift rest (n.accept HtmlRenderer.new),
        accept_shift n r]
      apply String.ext
      simp [String.data_append]
    | Raw hb =>
      show (acceptChildren rest (HtmlRenderer.visit_raw r hb)).buffer =
        r.buffer ++ (acceptChildren rest
          (HtmlRenderer.visit_raw HtmlRenderer.new hb)).buffer
      rw [acceptChildren_shift rest (HtmlRenderer.visit_raw r hb),
        acceptChildren_shift rest (HtmlRenderer.visit_raw HtmlRenderer.new hb),
        visit_raw_shift r hb]
      apply String.ext
      simp [String.data_append]
end



/-- C9: node-begin appends `<`, the tag, the serialized attributes, then
`>` for `Normal` or a space and `>` for `Void`; node-end appends
`</tag>` for `Normal` and nothing for `Void`; rendering the void `img`
node with `src="a.png"`, `alt="A"` yields exactly
`<img alt="A" src="a.png" >` — space before the closing bracket,
attributes sorted alphabetically. -/
theorem renderer_tag_transitions :
    (∀ (r : HtmlRenderer) (node : IRNode),
       (r.visit_node_begin node).buffer =
         r.buffer ++ "<" ++ node.get_tag ++ node.get_attrs.into_string ++
           (match node.get_type with
            | ElementType.Normal => ">"
            | ElementType.Void => " >")) ∧
    (∀ (r : HtmlRenderer) (node : IRNode),
       (r.visit_node_end node).buffer =
         r.buffer ++ (match node.get_type with
            | ElementType.Normal => "</" ++ node.get_tag ++ ">"
            | ElementType.Void => "")) ∧
    (imgExampleNode.accept HtmlRenderer.new).finalize = "<img alt=\"A\" src=\"a.png\" >" := by
  refine ⟨?_, ?_, by decide⟩
  · intro r node
    cases node with
    | mk tag attrs ty childs =>
      cases ty <;>
        (apply String.ext
         simp [HtmlRenderer.visit_node_begin, IRNode.get_tag, IRNode.get_attrs,
           IRNode.get_type, HtmlBlock.from_str, String.data_append, String.data_push])
  · intro r node
    cases node with
    | mk tag attrs ty childs =>
      cases ty <;>
        (apply String.ext
         simp [HtmlRenderer.visit_node_end, IRNode.get_tag, IRNode.get_type,
           HtmlBlock.from_str, String.data_append, String.data_push])

/-- C10: every visit transition only appends to the accumulated buffer
(the old buffer is a prefix of the new one), and a whole `accept`
traversal started from any renderer state produces exactly that state's
buffer followed by the output of the same traversal from a fresh
renderer — rendering resumes from any previous state and subtree
outputs compose by concatenation. -/
theorem renderer_append_only_compose :
    (∀ (r : HtmlRenderer) (n : IRNode),
       ∃ s, (r.visit_node_begin n).buffer = r.buffer ++ s) ∧
    (∀ (r : HtmlRenderer) (n : IRNode),
       ∃ s, (r.visit_node_end n).buffer = r.buffer ++ s) ∧
    (∀ (r : HtmlRenderer) (c : Content), (r.visit_text c).buffer = r.buffer ++ c) ∧
    (∀ (r : HtmlRenderer) (hb : HtmlBlock), (r.visit_raw hb).buffer = r.buffer ++ hb) ∧
    (∀ (n : IRNode) (r : HtmlRenderer),
       (n.accept r).buffer = r.buffer ++ (n.accept HtmlRenderer.new).buffer) ∧
    (∀ (l : List Element) (r : HtmlRenderer),
       (acceptChildren l r).buffer =
         r.buffer ++ (acceptChildren l HtmlRenderer.new).buffer) := by
  refine ⟨fun r n => ⟨_, visit_begin_shift r n⟩,
    fun r n => ⟨_, visit_end_shift r n⟩,
    fun r c => rfl, fun r hb => rfl,
    fun n r => accept_shift n r,
    fun l r => acceptChildren_shift l r⟩


end Quo
